import Mathlib

/-!
Verification of the bike scenario planner (`bike_scenarios.py`): a shallow
embedding of its catalog model, resolver, selection session, aggregator and
scenario store, with theorems checking the specification's claims.

Python strings are modelled as lists of Unicode code points (`List ℕ`),
Python floats as rationals (`ℚ`; the arithmetic the program performs on them
is modelled exactly), dictionaries as association lists or functions, and the
scenarios directory as a finite map from names to scenario values.
-/

namespace BikeScenarios

/-- Strings are modelled as lists of Unicode code points. -/
abbrev Str := List ℕ

/-- The code points of a Lean string, used to write concrete `Str` values. -/
def strOf (s : String) : Str := s.data.map Char.toNat

/-- Lower-casing of a single code point: model of Python `str.lower` on the
ASCII range (the only case mapping exercised by the program's data). -/
def lowerChar (c : ℕ) : ℕ := if 65 ≤ c ∧ c ≤ 90 then c + 32 else c

/-- Model of Python `str.lower`. -/
def lower (s : Str) : Str := s.map lowerChar

/-- One catalog part record (a row of `parts.csv` after `load_parts`):
`category,brand,model,variant` strings and the two numeric fields.
Python float values are modelled as rationals. -/
structure PartRecord where
  category : Str
  brand : Str
  model : Str
  variant : Str
  weight_g : ℚ
  price_sgd : ℚ
deriving DecidableEq

/-- The grouped catalog: `group_by_category`'s dict, as an association list
in key-insertion order (Python dicts preserve insertion order). -/
abbrev Catalog := List (Str × List PartRecord)

/-- A picks structure: category name to chosen record or `none` (skip). -/
abbrev Picks := List (Str × Option PartRecord)

/-- Dict lookup `cats[c]` / `cats.get(c)` on the grouped catalog. -/
def lookupG (cats : Catalog) (c : Str) : Option (List PartRecord) :=
  (cats.find? (fun kv => kv.1 == c)).map Prod.snd

/-- The match test of the resolver loop in `apply_scenario_mapping` (line 173):
`o["model"].lower() == want.lower() or
 (o["brand"]+" "+o["model"]).lower() == want.lower()`. -/
def matchesQuery (want : Str) (o : PartRecord) : Bool :=
  lower o.model == lower want || lower (o.brand ++ 32 :: o.model) == lower want

/-- The resolver loop of `apply_scenario_mapping` (lines 170-175): scan the
category's options in order, return the first match, else `none`. -/
def resolve (want : Str) (options : List PartRecord) : Option PartRecord :=
  options.find? (matchesQuery want)

/-- `pfx n h` holds when `n` is an initial segment of `h`. -/
def pfx : Str → Str → Bool
  | [], _ => true
  | _ :: _, [] => false
  | a :: as, b :: bs => a == b && pfx as bs

/-- `hasSub n h`: model of Python `n in h` (substring test). -/
def hasSub (needle hay : Str) : Bool :=
  pfx needle hay ||
    match hay with
    | [] => false
    | _ :: t => hasSub needle t

/-- The haystack of `search_and_choose` (line 72):
`o["brand"]+" "+o["model"]+" "+(o.get("variant") or "")`. -/
def joined (o : PartRecord) : Str := o.brand ++ 32 :: (o.model ++ 32 :: o.variant)

/-- The search filter of `search_and_choose` (lines 71-72): keep, in order,
the options whose joined brand/model/variant text contains the lower-cased
query as a substring. -/
def search (q : Str) (options : List PartRecord) : List PartRecord :=
  options.filter (fun o => hasSub (lower q) (lower (joined o)))

/-- One step of `group_by_category`'s loop (lines 41-42):
`cats.setdefault(p["category"], []).append(p)` on the association list
(append to the existing group, else add a new key at the end). -/
def addToGroup (cats : Catalog) (p : PartRecord) : Catalog :=
  match cats with
  | [] => [(p.category, [p])]
  | (k, g) :: rest =>
      if k = p.category then (k, g ++ [p]) :: rest else (k, g) :: addToGroup rest p

/-- The Python sort key of line 44: the pair `(x["brand"], x["model"])`,
compared as Python compares tuples of strings — lexicographically,
case-sensitive (code-point order). -/
def brandModelKey (o : PartRecord) : Lex (Str × Str) := toLex (o.brand, o.model)

/-- The order `list.sort(key=lambda x: (x["brand"], x["model"]))` sorts by. -/
def keyLe (a b : PartRecord) : Prop := brandModelKey a ≤ brandModelKey b

instance : DecidableRel keyLe := fun a b =>
  inferInstanceAs (Decidable (brandModelKey a ≤ brandModelKey b))

instance : IsTotal PartRecord keyLe :=
  ⟨fun a b => le_total (brandModelKey a) (brandModelKey b)⟩

instance : IsTrans PartRecord keyLe :=
  ⟨fun _ _ _ h h' => le_trans h h'⟩

/-- `group_by_category` (lines 39-45): group the parts by category in
insertion order, then stably sort each group by `(brand, model)`
(Python's `list.sort` is stable; modelled by insertion sort). -/
def group_by_category (parts : List PartRecord) : Catalog :=
  (parts.foldl addToGroup []).map (fun kv => (kv.1, List.insertionSort keyLe kv.2))

/-- `sorted(cats.keys())` (lines 164, 272): the category names in ascending
lexicographic (code-point) order. -/
def sortKeys (cats : Catalog) : List Str :=
  List.insertionSort (fun a b : Str => a ≤ b) (cats.map Prod.fst)

/-- `apply_scenario_mapping` (lines 161-177): for each category in sorted
order, a falsy mapping value (absent key or empty string) yields no pick;
otherwise the resolver runs on the category's options. -/
def apply_scenario_mapping (mapping : Str → Option Str) (cats : Catalog) : Picks :=
  (sortKeys cats).map fun c =>
    (c, match mapping c with
        | none => none
        | some w => if w = [] then none else resolve w ((lookupG cats c).getD []))

/-- The interactive selection loop of `main` (lines 271-274): one entry per
sorted category, with the terminal chooser (`pick_for_category`) abstracted
as a function from category name to outcome. -/
def interactive_picks (chooser : Str → Option PartRecord) (cats : Catalog) : Picks :=
  (sortKeys cats).map fun c => (c, chooser c)

/-- `summarize` (lines 104-108): sum `weight_g` and `price_sgd` over the
non-empty picks (`for p in picks.values() if p`). -/
def summarize (picks : Picks) : ℚ × ℚ :=
  (((picks.filterMap Prod.snd).map PartRecord.weight_g).sum,
   ((picks.filterMap Prod.snd).map PartRecord.price_sgd).sum)

/-- A persisted scenario: the JSON object written by `save_scenario`
(lines 111-117). `created` is the timestamp string, opaque here. -/
structure Scenario where
  name : Str
  created : Str
  picks : List (Str × PartRecord)
  total_weight_g : ℚ
  total_price_sgd : ℚ
deriving DecidableEq

/-- `{k: v for k, v in picks.items() if v}` (line 114): the non-empty picks,
in order. -/
def nonemptyPicks (picks : Picks) : List (Str × PartRecord) :=
  picks.filterMap (fun kv => kv.2.map (fun v => (kv.1, v)))

/-- The scenario value `save_scenario` constructs (lines 110-117): the given
totals tuple is stored as-is, the picks are filtered to the non-empty ones. -/
def save_scenario (name created : Str) (picks : Picks) (totals : ℚ × ℚ) : Scenario :=
  { name := name, created := created, picks := nonemptyPicks picks,
    total_weight_g := totals.1, total_price_sgd := totals.2 }

/-- The scenarios directory, as a map from scenario name to stored value
(one `SCEN_DIR/name.json` file per name). -/
abbrev Store := Str → Option Scenario

/-- Writing `SCEN_DIR/name.json` (lines 118-120): `open(path, "w")` truncates
any existing file, so the entry for `name` is created or replaced. -/
def storePut (st : Store) (n : Str) (sc : Scenario) : Store :=
  fun m => if m = n then some sc else st m

/-- Recomputing totals over a stored scenario's own picks (the aggregator of
lines 105-106 applied to the reloaded `picks` object; JSON round-trips the
stored numbers exactly). -/
def scenarioTotals (s : Scenario) : ℚ × ℚ :=
  ((s.picks.map (fun kv => kv.2.weight_g)).sum,
   (s.picks.map (fun kv => kv.2.price_sgd)).sum)

/-- Python `int(q)` on a float: truncation toward zero (line 135). -/
def pyInt (q : ℚ) : ℤ := if 0 ≤ q then ⌊q⌋ else ⌈q⌉

/-- Python `"{:.0f}"` formatting to an integer: round half to even
(lines 125-126). -/
def fmt0 (q : ℚ) : ℤ :=
  if q - ⌊q⌋ < 1 / 2 then ⌊q⌋
  else if 1 / 2 < q - ⌊q⌋ then ⌊q⌋ + 1
  else if (⌊q⌋ : ℤ) % 2 = 0 then ⌊q⌋ else ⌊q⌋ + 1

/-- A report cell: a string, or a number (modelled by its numeric value). -/
inductive Cell where
  | s (v : Str)
  | q (v : ℚ)
deriving DecidableEq

/-- The CSV report of `save_scenario` (lines 129-135): the header row of
field names, then per non-empty pick the row
`[cat, brand, model, variant, int(weight_g), price_sgd]` — the weight
truncated by `int(...)`, the price written raw. -/
def csvReport (picks : Picks) : List (List Cell) :=
  [Cell.s (strOf "category"), Cell.s (strOf "brand"), Cell.s (strOf "model"),
   Cell.s (strOf "variant"), Cell.s (strOf "weight_g"), Cell.s (strOf "price_sgd")]
  :: (nonemptyPicks picks).map (fun kv =>
      [Cell.s kv.1, Cell.s kv.2.brand, Cell.s kv.2.model, Cell.s kv.2.variant,
       Cell.q (pyInt kv.2.weight_g : ℚ), Cell.q kv.2.price_sgd])

/-- The data rows of the Markdown table (lines 122-125): same textual fields,
weight and price both formatted with `{:.0f}` (rounded to integer). -/
def mdRows (picks : Picks) : List (List Cell) :=
  (nonemptyPicks picks).map (fun kv =>
      [Cell.s kv.1, Cell.s kv.2.brand, Cell.s kv.2.model, Cell.s kv.2.variant,
       Cell.q (fmt0 kv.2.weight_g : ℚ), Cell.q (fmt0 kv.2.price_sgd : ℚ)])

/-- ASCII decimal digit test. -/
def isDigit (c : ℕ) : Bool := 48 ≤ c && c ≤ 57

/-- Python `str.strip` whitespace. -/
def isSpace (c : ℕ) : Bool :=
  c == 32 || c == 9 || c == 10 || c == 13 || c == 11 || c == 12

/-- Value of a string of decimal digits. -/
def digitsToNat (s : Str) : ℕ := s.foldl (fun a c => a * 10 + (c - 48)) 0

/-- Exponent suffix of a float literal: optional sign, then only digits. -/
def parseExp (s : Str) : Option ℤ :=
  match s with
  | 43 :: r => if !r.isEmpty && r.all isDigit then some (digitsToNat r : ℤ) else none
  | 45 :: r => if !r.isEmpty && r.all isDigit then some (-(digitsToNat r : ℤ)) else none
  | r => if !r.isEmpty && r.all isDigit then some (digitsToNat r : ℤ) else none

/-- Unsigned float literal: `digits [. digits] [exp]` or `. digits [exp]`,
with at least one digit overall. -/
def parseMant (s : Str) : Option ℚ :=
  let ip := s.takeWhile isDigit
  match s.dropWhile isDigit with
  | [] => if ip.isEmpty then none else some (digitsToNat ip : ℚ)
  | 46 :: r2 =>
      let fp := r2.takeWhile isDigit
      let m : ℚ := (digitsToNat ip : ℚ) + (digitsToNat fp : ℚ) / 10 ^ fp.length
      if ip.isEmpty && fp.isEmpty then none
      else
        match r2.dropWhile isDigit with
        | [] => some m
        | 101 :: r4 => (parseExp r4).map fun k => m * (10 : ℚ) ^ k
        | 69 :: r4 => (parseExp r4).map fun k => m * (10 : ℚ) ^ k
        | _ => none
  | 101 :: r4 =>
      if ip.isEmpty then none
      else (parseExp r4).map fun k => (digitsToNat ip : ℚ) * (10 : ℚ) ^ k
  | 69 :: r4 =>
      if ip.isEmpty then none
      else (parseExp r4).map fun k => (digitsToNat ip : ℚ) * (10 : ℚ) ^ k
  | _ => none

/-- Model of Python `float(s)` on a string: strip whitespace, optional sign,
decimal literal; `none` models the `ValueError` it raises otherwise. -/
def pyFloat (s : Str) : Option ℚ :=
  let t := ((s.dropWhile isSpace).reverse.dropWhile isSpace).reverse
  match t with
  | 43 :: r => parseMant r
  | 45 :: r => (parseMant r).map Neg.neg
  | r => parseMant r

/-- A raw CSV row as `csv.DictReader` yields it: the text fields plus the two
numeric cells as raw strings (`none` when the column is absent). -/
structure RawRow where
  category : Str
  brand : Str
  model : Str
  variant : Str
  weight_g : Option Str
  price_sgd : Option Str
deriving DecidableEq

/-- `float(row.get(field, 0) or 0)` (lines 34-35): an absent or empty cell
falls back to `0`; any other string goes to `float`, which may raise. -/
def parseNumField (v : Option Str) : Option ℚ :=
  match v with
  | none => some 0
  | some s => if s.isEmpty then some 0 else pyFloat s

/-- The row loop of `load_parts` (lines 29-37); `none` models the uncaught
`ValueError` from `float` aborting the load. -/
def load_parts (rows : List RawRow) : Option (List PartRecord) :=
  rows.mapM fun r => do
    let w ← parseNumField r.weight_g
    let p ← parseNumField r.price_sgd
    pure ⟨r.category, r.brand, r.model, r.variant, w, p⟩

/-- The catalog-building step of `main` (lines 219-223): an empty part list
is fatal (`No parts found in parts.csv` is printed and the run ends before
any session starts — modelled as `none`); otherwise the catalog is built. -/
def buildCatalog (parts : List PartRecord) : Option Catalog :=
  if parts.isEmpty then none else some (group_by_category parts)

/-! Concrete sample data (records shaped like rows of `parts.csv`), used to
instantiate the theorems below on explicit inputs. -/

/-- A fork option, as in the spec's Scenario A. -/
def fork1 : PartRecord := ⟨strOf "Fork", strOf "RockShox", strOf "SID", strOf "V1", 1700, 900⟩

/-- A second option with the same `(brand, model)` pair as `fork1` but a
different variant: a true duplicate key for the resolver and the sort. -/
def fork2 : PartRecord := ⟨strOf "Fork", strOf "RockShox", strOf "SID", strOf "V2", 1650, 950⟩

/-- A wheelset option, as in the spec's Scenario A. -/
def wheel1 : PartRecord := ⟨strOf "Wheelset", strOf "DT", strOf "XM481", strOf "29", 1850, 400⟩

/-- A part whose model is the empty string. -/
def emptyModelPart : PartRecord := ⟨strOf "Fork", strOf "NoName", [], [], 100, 10⟩

/-- A raw catalog row whose `weight_g` cell is the unparseable text `abc`. -/
def badRow : RawRow :=
  ⟨strOf "Fork", strOf "Brandy", strOf "Modello", [], some (strOf "abc"), some (strOf "100")⟩

/-- A pick with non-integer weight (1701.5 g) and price (99.5 SGD). -/
def oddPick : PartRecord :=
  ⟨strOf "Fork", strOf "RockShox", strOf "SID", strOf "V1", 3403 / 2, 199 / 2⟩

/-- A picks structure holding only `oddPick`. -/
def oddPicks : Picks := [(strOf "Fork", some oddPick)]

/-! ## Helper lemmas -/

theorem lowerChar_lowerChar (c : ℕ) : lowerChar (lowerChar c) = lowerChar c := by
  simp only [lowerChar]
  split_ifs with h1 h2 <;> omega

theorem lower_lower (s : Str) : lower (lower s) = lower s := by
  simp only [lower, List.map_map]
  congr 1
  funext c
  exact lowerChar_lowerChar c

theorem matchesQuery_lower (q : Str) (o : PartRecord) :
    matchesQuery (lower q) o = matchesQuery q o := by
  simp [matchesQuery, lower_lower]

theorem find?_some_char {α : Type} (p : α → Bool) (l : List α) (a : α) :
    l.find? p = some a ↔
      ∃ l1 l2, l = l1 ++ a :: l2 ∧ p a = true ∧ ∀ x ∈ l1, p x = false := by
  induction l with
  | nil => simp
  | cons b t ih =>
    by_cases hb : p b = true
    · rw [List.find?_cons_of_pos t hb]
      constructor
      · intro h
        obtain rfl : b = a := by injection h
        exact ⟨[], t, rfl, hb, by simp⟩
      · rintro ⟨l1, l2, hl, hpa, hall⟩
        cases l1 with
        | nil =>
          obtain ⟨rfl, rfl⟩ : b = a ∧ t = l2 := by simpa using hl
          rfl
        | cons c l1' =>
          obtain ⟨rfl, -⟩ : b = c ∧ t = l1' ++ a :: l2 := by simpa using hl
          exact absurd hb (by simp [hall b (by simp)])
    · rw [List.find?_cons_of_neg t hb, ih]
      constructor
      · rintro ⟨l1, l2, rfl, hpa, hall⟩
        refine ⟨b :: l1, l2, rfl, hpa, ?_⟩
        intro x hx
        rcases List.mem_cons.mp hx with rfl | hx'
        · exact Bool.not_eq_true _ ▸ (by simpa using hb)
        · exact hall x hx'
      · rintro ⟨l1, l2, hl, hpa, hall⟩
        cases l1 with
        | nil =>
          obtain ⟨rfl, rfl⟩ : b = a ∧ t = l2 := by simpa using hl
          exact absurd hpa hb
        | cons c l1' =>
          obtain ⟨rfl, rfl⟩ : b = c ∧ t = l1' ++ a :: l2 := by simpa using hl
          exact ⟨l1', l2, rfl, hpa, fun x hx => hall x (by simp [hx])⟩

theorem pfx_iff (n : Str) : ∀ h : Str, pfx n h = true ↔ ∃ t, h = n ++ t := by
  induction n with
  | nil => intro h; simp [pfx]
  | cons a as ih =>
    intro h
    cases h with
    | nil =>
      simp [pfx]
    | cons b bs =>
      rw [pfx]
      simp only [Bool.and_eq_true, beq_iff_eq, ih bs]
      constructor
      · rintro ⟨rfl, t, rfl⟩
        exact ⟨t, rfl⟩
      · rintro ⟨t, ht⟩
        obtain ⟨rfl, rfl⟩ : b = a ∧ bs = as ++ t := by simpa using ht
        exact ⟨rfl, t, rfl⟩

theorem hasSub_iff (n : Str) : ∀ h : Str, hasSub n h = true ↔ ∃ t1 t2, h = t1 ++ n ++ t2 := by
  intro h
  induction h with
  | nil =>
    rw [hasSub]
    simp only [Bool.or_false, pfx_iff]
    constructor
    · rintro ⟨t, ht⟩
      exact ⟨[], t, by simpa using ht⟩
    · rintro ⟨t1, t2, ht⟩
      obtain ⟨rfl, rfl, rfl⟩ : t1 = [] ∧ n = [] ∧ t2 = [] := by
        rcases List.append_eq_nil.mp (List.append_eq_nil.mp ht.symm).1 with ⟨h1, h2⟩
        exact ⟨h1, h2, (List.append_eq_nil.mp ht.symm).2⟩
      exact ⟨[], by simp⟩
  | cons c t iht =>
    rw [hasSub]
    simp only [Bool.or_eq_true, pfx_iff, iht]
    constructor
    · rintro (⟨t2, ht⟩ | ⟨t1, t2, rfl⟩)
      · exact ⟨[], t2, by simpa using ht⟩
      · exact ⟨c :: t1, t2, by simp⟩
    · rintro ⟨t1, t2, ht⟩
      cases t1 with
      | nil =>
        exact Or.inl ⟨t2, by simpa using ht⟩
      | cons d t1' =>
        obtain ⟨rfl, rfl⟩ : c = d ∧ t = t1' ++ n ++ t2 := by simpa using ht
        exact Or.inr ⟨t1', t2, rfl⟩

/-! ## Claims -/

/-- C1: resolution of a query `q` against an option list `L` returns the first
record of `L` (in `L`'s order) whose model — or brand, a single space, and
model — equals `q` after lower-casing both sides; if no record matches the
result is `none` (a not-found signal, not an error); with duplicate
`(brand, model)` pairs the earlier-positioned record is returned (everything
before the result fails the match), and resolving the lower-cased `q` gives
the same result as resolving `q`. -/
theorem resolve_first_match (q : Str) (L : List PartRecord) :
    (resolve q L = none ↔ ∀ o ∈ L, matchesQuery q o = false)
  ∧ (∀ o, resolve q L = some o ↔
      ∃ l1 l2, L = l1 ++ o :: l2 ∧ matchesQuery q o = true ∧
        ∀ x ∈ l1, matchesQuery q x = false)
  ∧ resolve (lower q) L = resolve q L := by
  refine ⟨?_, fun o => find?_some_char _ L o, ?_⟩
  · rw [resolve, List.find?_eq_none]
    simp [Bool.not_eq_true]
  · have hm : matchesQuery (lower q) = matchesQuery q :=
      funext fun o => matchesQuery_lower q o
    rw [resolve, resolve, hm]

/-- Witness for C1: on a list with a duplicated `(brand, model)` pair, the
case-mismatched query `rockshox sid` resolves to the earlier record. -/
theorem resolve_first_match_w :
    resolve (strOf "rockshox sid") [fork1, fork2] = some fork1 :=
  ((resolve_first_match (strOf "rockshox sid") [fork1, fork2]).2.1 fork1).mpr
    ⟨[], [fork2], rfl, by decide, by simp⟩

/-- C9: `search q L` returns exactly the records of `L` whose brand, model and
variant, lower-cased and space-joined, contain the lower-cased `q` as a
substring, preserving `L`'s order; the empty query matches every record. -/
theorem search_substring (q : Str) (L : List PartRecord) :
    (search q L).Sublist L
  ∧ (∀ o, o ∈ search q L ↔
      o ∈ L ∧ ∃ t1 t2, lower (joined o) = t1 ++ lower q ++ t2)
  ∧ search [] L = L := by
  refine ⟨List.filter_sublist L, ?_, ?_⟩
  · intro o
    rw [search, List.mem_filter, hasSub_iff]
  · rw [search]
    rw [List.filter_eq_self]
    intro o _
    rw [hasSub_iff]
    exact ⟨[], lower (joined o), by simp [lower]⟩

/-- Witness for C9: searching `29` in a two-option list returns only the
wheelset (whose variant contains `29`), and the empty query returns the
whole list. -/
theorem search_substring_w :
    wheel1 ∈ search (strOf "29") [fork1, wheel1]
  ∧ search [] [fork1, wheel1] = [fork1, wheel1] := by
  constructor
  · exact ((search_substring (strOf "29") [fork1, wheel1]).2.1 wheel1).mpr
      ⟨by simp, lower (strOf "DT XM481 "), [], by decide⟩
  · exact (search_substring [] [fork1, wheel1]).2.2

theorem nonemptyPicks_map_snd (picks : Picks) :
    (nonemptyPicks picks).map Prod.snd = picks.filterMap Prod.snd := by
  induction picks with
  | nil => rfl
  | cons kv t ih =>
    cases h : kv.2 with
    | none => simpa [nonemptyPicks, List.filterMap_cons, h] using ih
    | some v => simpa [nonemptyPicks, List.filterMap_cons, h] using ih

/-- C2: saving a scenario (with the totals `summarize` computes, as both save
sites in `main` do) stores exactly the non-empty picks, the stored totals
equal the sums of `weight_g` and `price_sgd` over the stored picks, and
reloading the saved scenario from the store and recomputing totals over its
own picks reproduces the stored totals exactly. -/
theorem save_totals_roundtrip (st : Store) (nm created : Str) (picks : Picks) :
    (save_scenario nm created picks (summarize picks)).picks = nonemptyPicks picks
  ∧ (save_scenario nm created picks (summarize picks)).total_weight_g
      = ((nonemptyPicks picks).map (fun kv => kv.2.weight_g)).sum
  ∧ (save_scenario nm created picks (summarize picks)).total_price_sgd
      = ((nonemptyPicks picks).map (fun kv => kv.2.price_sgd)).sum
  ∧ storePut st nm (save_scenario nm created picks (summarize picks)) nm
      = some (save_scenario nm created picks (summarize picks))
  ∧ scenarioTotals (save_scenario nm created picks (summarize picks))
      = ((save_scenario nm created picks (summarize picks)).total_weight_g,
         (save_scenario nm created picks (summarize picks)).total_price_sgd) := by
  have hw : ((nonemptyPicks picks).map (fun kv => kv.2.weight_g)).sum
      = ((picks.filterMap Prod.snd).map PartRecord.weight_g).sum := by
    rw [show (fun kv : Str × PartRecord => kv.2.weight_g)
          = PartRecord.weight_g ∘ Prod.snd from rfl,
        ← List.map_map, nonemptyPicks_map_snd]
  have hp : ((nonemptyPicks picks).map (fun kv => kv.2.price_sgd)).sum
      = ((picks.filterMap Prod.snd).map PartRecord.price_sgd).sum := by
    rw [show (fun kv : Str × PartRecord => kv.2.price_sgd)
          = PartRecord.price_sgd ∘ Prod.snd from rfl,
        ← List.map_map, nonemptyPicks_map_snd]
  refine ⟨rfl, ?_, ?_, ?_, ?_⟩
  · rw [hw]; rfl
  · rw [hp]; rfl
  · simp [storePut]
  · rw [scenarioTotals]
    simp only [save_scenario, summarize]
    rw [hw, hp]

/-- C4: building the catalog from an empty part list fails — `main` prints
`No parts found in parts.csv` and returns before any session starts (the
`none` outcome) — and this happens exactly on the empty input, so no
(trivial) catalog is ever produced from an empty record sequence. -/
theorem buildCatalog_empty_fails :
    buildCatalog ([] : List PartRecord) = none
  ∧ ∀ parts : List PartRecord, buildCatalog parts = none ↔ parts = [] := by
  refine ⟨rfl, fun parts => ?_⟩
  rw [buildCatalog]
  cases parts <;> simp

/-- C7: saving a scenario under a name that already has a persisted scenario
overwrites it (last-write-wins): writing is total (no name-collision error),
the store afterwards holds the new scenario under that name, and every other
name is untouched. -/
theorem storePut_overwrites (st : Store) (nm created : Str) (sc0 : Scenario)
    (picks : Picks) (totals : ℚ × ℚ) :
    storePut (storePut st nm sc0) nm (save_scenario nm created picks totals) nm
      = some (save_scenario nm created picks totals)
  ∧ (∀ sc : Scenario, ∀ m, storePut st nm sc m = if m = nm then some sc else st m)
  ∧ ∀ sc : Scenario, storePut st nm sc nm = some sc := by
  refine ⟨by simp [storePut], fun sc m => rfl, fun sc => by simp [storePut]⟩

/-- C6: both selection sessions — mapping-driven (`apply_scenario_mapping`)
and interactive (`main`'s loop with the chooser abstracted) — produce a Picks
whose keys are exactly the catalog's categories, each exactly once, processed
in ascending (alphabetical/code-point) order. -/
theorem picks_cover_categories (m : Str → Option Str) (chooser : Str → Option PartRecord)
    (cats : Catalog) (h : (cats.map Prod.fst).Nodup) :
    (apply_scenario_mapping m cats).map Prod.fst = sortKeys cats
  ∧ (interactive_picks chooser cats).map Prod.fst = sortKeys cats
  ∧ (sortKeys cats).Perm (cats.map Prod.fst)
  ∧ (sortKeys cats).Nodup
  ∧ (sortKeys cats).Sorted (fun a b : Str => a ≤ b) := by
  have key : ∀ (g : Str → Option PartRecord) (l : List Str),
      (l.map fun c => (c, g c)).map Prod.fst = l := by
    intro g l
    induction l with
    | nil => rfl
    | cons a t ih => simp only [List.map_cons, ih]
  refine ⟨?_, ?_, List.perm_insertionSort _ _, ?_, List.sorted_insertionSort _ _⟩
  · rw [apply_scenario_mapping]
    exact key _ _
  · rw [interactive_picks]
    exact key _ _
  · exact ((List.perm_insertionSort _ _).nodup_iff).mpr h

/-- Witness for C6: on a concrete two-category catalog (with keys given out
of order), both sessions cover exactly the two categories, sorted. -/
theorem picks_cover_categories_w :
    (apply_scenario_mapping (fun _ => none) [(strOf "Wheelset", [wheel1]), (strOf "Fork", [fork1])]).map Prod.fst
      = [strOf "Fork", strOf "Wheelset"]
  ∧ (sortKeys [(strOf "Wheelset", [wheel1]), (strOf "Fork", [fork1])]).Nodup := by
  have h := picks_cover_categories (fun _ => none) (fun _ => none)
    [(strOf "Wheelset", [wheel1]), (strOf "Fork", [fork1])] (by decide)
  exact ⟨h.1.trans (by decide), h.2.2.2.1⟩

theorem find?_map_keys (f : Str → Option PartRecord) (keys : List Str) (c : Str)
    (hc : c ∈ keys) :
    (keys.map fun k => (k, f k)).find? (fun kv => kv.1 == c) = some (c, f c) := by
  induction keys with
  | nil => cases hc
  | cons k t ih =>
    by_cases hk : k = c
    · subst hk
      rw [List.map_cons, List.find?_cons_of_pos _ (by simp)]
    · rw [List.map_cons, List.find?_cons_of_neg _ (by simp [hk])]
      refine ih ?_
      rcases List.mem_cons.mp hc with h1 | h1
      · exact absurd h1.symm hk
      · exact h1

/-- C10: in a mapping-driven session an empty-string mapping value behaves
exactly like an absent entry — erasing all empty values from the mapping
changes nothing, and a category mapped to the empty string gets pick `none`
even though resolution is never attempted against its options — and mapping
keys outside the catalog's categories are ignored: two mappings that agree on
the catalog's categories produce identical Picks. -/
theorem mapping_empty_and_unknown_keys (cats : Catalog) (m m' : Str → Option Str)
    (hagree : ∀ c, c ∈ cats.map Prod.fst → m c = m' c) :
    apply_scenario_mapping m cats = apply_scenario_mapping m' cats
  ∧ apply_scenario_mapping m cats =
      apply_scenario_mapping (fun c => (m c).bind fun v => if v = [] then none else some v) cats
  ∧ ∀ c, m c = some [] → c ∈ cats.map Prod.fst →
      (apply_scenario_mapping m cats).find? (fun kv => kv.1 == c) = some (c, none) := by
  refine ⟨?_, ?_, ?_⟩
  · rw [apply_scenario_mapping, apply_scenario_mapping]
    refine List.map_congr_left fun c hc => ?_
    rw [hagree c (((List.perm_insertionSort _ _).mem_iff).mp hc)]
  · rw [apply_scenario_mapping, apply_scenario_mapping]
    refine List.map_congr_left fun c _ => ?_
    cases hm : m c with
    | none => simp
    | some w =>
      by_cases hw : w = []
      · subst hw; simp
      · simp [hw]
  · intro c hm hc
    have hmem : c ∈ sortKeys cats := ((List.perm_insertionSort _ _).mem_iff).mpr hc
    rw [apply_scenario_mapping]
    rw [find?_map_keys _ _ _ hmem, hm]
    simp

/-- Witness for C10: a catalog whose single option has the empty string as
model; a mapping sending its category to the empty string and junk keys to
junk values produces the same Picks as one without them, and the pick for the
category is `none` — the empty-model option is not matched. -/
theorem mapping_empty_and_unknown_keys_w :
    apply_scenario_mapping
        (fun c => if c = strOf "Fork" then some [] else some (strOf "junk"))
        [(strOf "Fork", [emptyModelPart])]
      = apply_scenario_mapping (fun c => if c = strOf "Fork" then some [] else none)
        [(strOf "Fork", [emptyModelPart])]
  ∧ (apply_scenario_mapping
        (fun c => if c = strOf "Fork" then some [] else some (strOf "junk"))
        [(strOf "Fork", [emptyModelPart])]).find? (fun kv => kv.1 == strOf "Fork")
      = some (strOf "Fork", none) := by
  have h := mapping_empty_and_unknown_keys [(strOf "Fork", [emptyModelPart])]
    (fun c => if c = strOf "Fork" then some [] else some (strOf "junk"))
    (fun c => if c = strOf "Fork" then some [] else none)
    (by intro c hc
        have : c = strOf "Fork" := by simpa using hc
        simp [this])
  exact ⟨h.1, h.2.2 (strOf "Fork") (by simp) (by simp)⟩

/-- C3 counterexample: a row whose `weight_g` cell is the non-empty text
`abc` makes `load_parts` fail (an uncaught `ValueError` from `float`), so
loading is not lenient for every malformed numeric field. -/
theorem load_parts_malformed_fails : load_parts [badRow] = none := by decide

theorem load_parts_nil : load_parts [] = some [] := rfl

theorem load_parts_cons (r : RawRow) (t : List RawRow) :
    load_parts (r :: t) = (parseNumField r.weight_g).bind fun w =>
      (parseNumField r.price_sgd).bind fun p =>
        (load_parts t).bind fun l =>
          some ((⟨r.category, r.brand, r.model, r.variant, w, p⟩ : PartRecord) :: l) := by
  rw [load_parts, List.mapM_cons, load_parts]
  rcases parseNumField r.weight_g with _ | w
  · rfl
  · rcases parseNumField r.price_sgd with _ | p
    · rfl
    · rcases t.mapM _ with _ | l <;> rfl

/-- C3 amended: only a missing or empty numeric cell is substituted with zero
(the `or 0` fallback); loading fails exactly when some row has a numeric cell
that `float` cannot parse (a non-empty, unparseable string). -/
theorem load_parts_lenient :
    (∀ v : Option Str, v = none ∨ v = some [] → parseNumField v = some 0)
  ∧ ∀ rows : List RawRow, load_parts rows = none ↔
      ∃ r ∈ rows, parseNumField r.weight_g = none ∨ parseNumField r.price_sgd = none := by
  constructor
  · intro v hv
    rcases hv with rfl | rfl <;> simp [parseNumField]
  · intro rows
    induction rows with
    | nil => rw [load_parts_nil]; simp
    | cons r t ih =>
      rw [load_parts_cons]
      rcases hw : parseNumField r.weight_g with _ | w
      · simp only [Option.none_bind]
        exact iff_of_true (by simp) ⟨r, List.mem_cons_self r t, Or.inl hw⟩
      · rcases hp : parseNumField r.price_sgd with _ | p
        · simp only [Option.some_bind, Option.none_bind]
          exact iff_of_true (by simp) ⟨r, List.mem_cons_self r t, Or.inr hp⟩
        · simp only [Option.some_bind]
          rcases hl : load_parts t with _ | l
          · simp only [Option.none_bind]
            obtain ⟨r', hr', hor⟩ := ih.mp hl
            exact iff_of_true (by simp) ⟨r', List.mem_cons_of_mem r hr', hor⟩
          · simp only [Option.some_bind]
            constructor
            · intro hcontra
              cases hcontra
            · rintro ⟨r', hr', hor⟩
              rcases List.mem_cons.mp hr' with rfl | hr''
              · rcases hor with hh | hh
                · rw [hw] at hh; cases hh
                · rw [hp] at hh; cases hh
              · have : load_parts t = none := ih.mpr ⟨r', hr'', hor⟩
                rw [hl] at this
                cases this

/-- Witness for C3 amended: the empty and the absent cell both parse as 0. -/
theorem load_parts_lenient_w :
    parseNumField (some ([] : Str)) = some 0 ∧ parseNumField none = some 0 :=
  ⟨load_parts_lenient.1 (some []) (Or.inr rfl), load_parts_lenient.1 none (Or.inl rfl)⟩

theorem lookupG_cons (k : Str) (g : List PartRecord) (rest : Catalog) (c : Str) :
    lookupG ((k, g) :: rest) c = if k = c then some g else lookupG rest c := by
  by_cases h : k = c
  · subst h
    rw [lookupG, List.find?_cons_of_pos _ (by simp), if_pos rfl]
    rfl
  · rw [lookupG, List.find?_cons_of_neg _ (by simp [h]), if_neg h, lookupG]

theorem lookupG_addToGroup (acc : Catalog) (p : PartRecord) (c : Str) :
    lookupG (addToGroup acc p) c =
      if p.category = c then some ((lookupG acc c).getD [] ++ [p])
      else lookupG acc c := by
  induction acc with
  | nil =>
    rw [show addToGroup [] p = [(p.category, [p])] from rfl, lookupG_cons]
    by_cases h : p.category = c
    · rw [if_pos h, if_pos h]
      rfl
    · rw [if_neg h, if_neg h]
  | cons kv rest ih =>
    obtain ⟨k, g⟩ := kv
    by_cases hk : k = p.category
    · rw [show addToGroup ((k, g) :: rest) p = (k, g ++ [p]) :: rest from by
            simp [addToGroup, hk]]
      simp only [lookupG_cons]
      by_cases hc : k = c
      · have hpc : p.category = c := hk.symm.trans hc
        simp [hc, hpc]
      · have hpc : ¬p.category = c := fun hpc => hc (hk.trans hpc)
        simp [hc, hpc]
    · rw [show addToGroup ((k, g) :: rest) p = (k, g) :: addToGroup rest p from by
            simp [addToGroup, hk]]
      simp only [lookupG_cons]
      by_cases hc : k = c
      · have hpc : ¬p.category = c := fun hpc => hk (hc.trans hpc.symm)
        simp [hc, hpc]
      · simp only [if_neg hc]
        exact ih

theorem lookupG_foldl_some (parts : List PartRecord) (acc : Catalog) (c : Str)
    (g : List PartRecord) (h : lookupG acc c = some g) :
    lookupG (parts.foldl addToGroup acc) c
      = some (g ++ parts.filter (fun o => o.category == c)) := by
  induction parts generalizing acc g with
  | nil => simpa using h
  | cons p t ih =>
    rw [List.foldl_cons]
    by_cases hc : p.category = c
    · have step : lookupG (addToGroup acc p) c = some (g ++ [p]) := by
        rw [lookupG_addToGroup, if_pos hc, h]
        rfl
      have hfil : List.filter (fun o => o.category == c) (p :: t)
          = p :: List.filter (fun o => o.category == c) t := by
        rw [List.filter_cons, if_pos (by simp [hc])]
      rw [ih _ _ step, hfil]
      simp
    · have step : lookupG (addToGroup acc p) c = some g := by
        rw [lookupG_addToGroup, if_neg hc]
        exact h
      have hfil : List.filter (fun o => o.category == c) (p :: t)
          = List.filter (fun o => o.category == c) t := by
        rw [List.filter_cons, if_neg (by simp [hc])]
      rw [ih _ _ step, hfil]

theorem lookupG_foldl_none (parts : List PartRecord) (acc : Catalog) (c : Str)
    (h : lookupG acc c = none) :
    lookupG (parts.foldl addToGroup acc) c
      = if parts.filter (fun o => o.category == c) = [] then none
        else some (parts.filter (fun o => o.category == c)) := by
  induction parts generalizing acc with
  | nil => simpa using h
  | cons p t ih =>
    rw [List.foldl_cons]
    by_cases hc : p.category = c
    · have step : lookupG (addToGroup acc p) c = some [p] := by
        rw [lookupG_addToGroup, if_pos hc, h]
        rfl
      have hfil : List.filter (fun o => o.category == c) (p :: t)
          = p :: List.filter (fun o => o.category == c) t := by
        rw [List.filter_cons, if_pos (by simp [hc])]
      rw [lookupG_foldl_some t _ c [p] step, hfil]
      simp
    · have step : lookupG (addToGroup acc p) c = none := by
        rw [lookupG_addToGroup, if_neg hc]
        exact h
      have hfil : List.filter (fun o => o.category == c) (p :: t)
          = List.filter (fun o => o.category == c) t := by
        rw [List.filter_cons, if_neg (by simp [hc])]
      rw [ih _ step, hfil]

theorem keys_addToGroup (acc : Catalog) (p : PartRecord) :
    (addToGroup acc p).map Prod.fst
      = if p.category ∈ acc.map Prod.fst then acc.map Prod.fst
        else acc.map Prod.fst ++ [p.category] := by
  induction acc with
  | nil => simp [addToGroup]
  | cons kv rest ih =>
    obtain ⟨k, g⟩ := kv
    by_cases hk : k = p.category
    · rw [show addToGroup ((k, g) :: rest) p = (k, g ++ [p]) :: rest from by
            simp [addToGroup, hk]]
      rw [List.map_cons, List.map_cons, if_pos (by simp [← hk])]
    · rw [show addToGroup ((k, g) :: rest) p = (k, g) :: addToGroup rest p from by
            simp [addToGroup, hk]]
      rw [List.map_cons, ih, List.map_cons]
      by_cases hm : p.category ∈ rest.map Prod.fst
      · rw [if_pos hm, if_pos (by simp [hm])]
      · have hnotin : p.category ∉ (k :: rest.map Prod.fst) := by
          simp only [List.mem_cons, not_or]
          exact ⟨fun hh => hk hh.symm, hm⟩
        rw [if_neg hm, if_neg hnotin, List.cons_append]

theorem mem_keys_foldl (parts : List PartRecord) (acc : Catalog) (c : Str) :
    c ∈ (parts.foldl addToGroup acc).map Prod.fst
      ↔ c ∈ acc.map Prod.fst ∨ c ∈ parts.map PartRecord.category := by
  induction parts generalizing acc with
  | nil => simp
  | cons p t ih =>
    rw [List.foldl_cons, ih, keys_addToGroup]
    by_cases hm : p.category ∈ acc.map Prod.fst
    · rw [if_pos hm]
      constructor
      · rintro (h | h)
        · exact Or.inl h
        · exact Or.inr (by rw [List.map_cons]; exact List.mem_cons_of_mem _ h)
      · rintro (h | h)
        · exact Or.inl h
        · rw [List.map_cons] at h
          rcases List.mem_cons.mp h with rfl | h'
          · exact Or.inl hm
          · exact Or.inr h'
    · rw [if_neg hm]
      rw [List.map_cons]
      simp only [List.mem_append, List.mem_singleton, List.mem_cons,
        List.not_mem_nil, or_false]
      constructor
      · rintro ((h | h) | h)
        · exact Or.inl h
        · exact Or.inr (Or.inl h)
        · exact Or.inr (Or.inr h)
      · rintro (h | h | h)
        · exact Or.inl (Or.inl h)
        · exact Or.inl (Or.inr h)
        · exact Or.inr h

theorem nodup_keys_foldl (parts : List PartRecord) (acc : Catalog)
    (h : (acc.map Prod.fst).Nodup) :
    ((parts.foldl addToGroup acc).map Prod.fst).Nodup := by
  induction parts generalizing acc with
  | nil => simpa using h
  | cons p t ih =>
    rw [List.foldl_cons]
    refine ih _ ?_
    rw [keys_addToGroup]
    by_cases hm : p.category ∈ acc.map Prod.fst
    · rwa [if_pos hm]
    · rw [if_neg hm]
      rw [List.nodup_append]
      exact ⟨h, List.nodup_singleton _,
        fun x hx hxmem => hm ((List.mem_singleton.mp hxmem) ▸ hx)⟩

theorem lookupG_map_sort (cats : Catalog) (c : Str) :
    lookupG (cats.map fun kv => (kv.1, List.insertionSort keyLe kv.2)) c
      = (lookupG cats c).map (List.insertionSort keyLe) := by
  induction cats with
  | nil => rfl
  | cons kv rest ih =>
    obtain ⟨k, g⟩ := kv
    rw [List.map_cons]
    simp only [lookupG_cons]
    by_cases hk : k = c
    · simp [hk]
    · simp only [if_neg hk]
      exact ih

theorem filter_key_insertionSort (l : List PartRecord) (b m : Str) :
    (List.insertionSort keyLe l).filter (fun o => o.brand == b && o.model == m)
      = l.filter (fun o => o.brand == b && o.model == m) := by
  have hpair : (l.filter (fun o => o.brand == b && o.model == m)).Pairwise keyLe := by
    refine List.pairwise_of_forall_mem_list ?_
    intro x hx y hy
    have hxp := (List.mem_filter.mp hx).2
    have hyp := (List.mem_filter.mp hy).2
    obtain ⟨hxb, hxm⟩ : x.brand = b ∧ x.model = m := by simpa using hxp
    obtain ⟨hyb, hym⟩ : y.brand = b ∧ y.model = m := by simpa using hyp
    refine le_of_eq ?_
    rw [brandModelKey, brandModelKey, hxb, hxm, hyb, hym]
  have hidem : List.filter (fun o : PartRecord => o.brand == b && o.model == m)
        (List.filter (fun o => o.brand == b && o.model == m) l)
      = List.filter (fun o => o.brand == b && o.model == m) l := by
    rw [List.filter_filter]
    exact List.filter_congr (fun a _ => Bool.and_self _)
  have hsub2 : List.Sublist (l.filter (fun o => o.brand == b && o.model == m))
      ((List.insertionSort keyLe l).filter (fun o => o.brand == b && o.model == m)) :=
    hidem ▸ (List.sublist_insertionSort hpair (List.filter_sublist l)).filter _
  have hperm := (List.perm_insertionSort keyLe l).filter
    (fun o => o.brand == b && o.model == m)
  exact (hsub2.eq_of_length hperm.length_eq.symm).symm

/-- C5: for a non-empty part list, the catalog's keys are exactly the
distinct categories of the input (no duplicates, and a key exists for a
category exactly when a part of that category exists); each category's option
list is sorted ascending by the case-sensitive `(brand, model)` pair, is a
permutation of the input's parts of that category, and the sort is stable:
restricted to any one `(brand, model)` key, the option list keeps exactly the
original input order. -/
theorem group_by_category_spec (parts : List PartRecord) (hne : parts ≠ []) :
    group_by_category parts ≠ []
  ∧ ((group_by_category parts).map Prod.fst).Nodup
  ∧ (∀ c, c ∈ (group_by_category parts).map Prod.fst ↔ c ∈ parts.map PartRecord.category)
  ∧ ∀ c opts, lookupG (group_by_category parts) c = some opts →
      opts.Sorted keyLe
    ∧ opts.Perm (parts.filter (fun o => o.category == c))
    ∧ ∀ b m, opts.filter (fun o => o.brand == b && o.model == m)
        = parts.filter (fun o => o.category == c && (o.brand == b && o.model == m)) := by
  have keysEq : (group_by_category parts).map Prod.fst
      = (parts.foldl addToGroup []).map Prod.fst := by
    rw [group_by_category, List.map_map]
    exact List.map_congr_left fun kv _ => rfl
  have hmem : ∀ c, c ∈ (group_by_category parts).map Prod.fst
      ↔ c ∈ parts.map PartRecord.category := by
    intro c
    rw [keysEq, mem_keys_foldl]
    simp
  refine ⟨?_, ?_, hmem, ?_⟩
  · obtain ⟨q, rest, rfl⟩ := List.exists_cons_of_ne_nil hne
    intro h0
    have : q.category ∈ (group_by_category (q :: rest)).map Prod.fst :=
      (hmem q.category).mpr (by simp)
    rw [h0] at this
    simp at this
  · rw [keysEq]
    exact nodup_keys_foldl parts [] (by simp)
  · intro c opts hl
    rw [group_by_category, lookupG_map_sort, lookupG_foldl_none parts [] c rfl] at hl
    by_cases hf : parts.filter (fun o => o.category == c) = []
    · rw [if_pos hf] at hl
      cases hl
    · rw [if_neg hf] at hl
      obtain rfl : opts = List.insertionSort keyLe (parts.filter (fun o => o.category == c)) := by
        injection hl.symm
      refine ⟨List.sorted_insertionSort _ _,
        (List.perm_insertionSort _ _).trans (List.Perm.refl _), ?_⟩
      intro b m
      rw [filter_key_insertionSort, List.filter_filter]
      exact List.filter_congr fun a _ => Bool.and_comm _ _

/-- Witness for C5 on concrete data: three parts in two categories, the
`Fork` group holding the equal-keyed `fork2, fork1` in input order. -/
theorem group_by_category_spec_w :
    ((group_by_category [wheel1, fork2, fork1]).map Prod.fst).Nodup
  ∧ List.Sorted keyLe [fork2, fork1] := by
  have h := group_by_category_spec [wheel1, fork2, fork1] (by decide)
  refine ⟨h.2.1, ?_⟩
  have h2 := h.2.2.2 (strOf "Fork") [fork2, fork1] (by decide)
  exact h2.1

theorem pyInt_intCast (z : ℤ) : pyInt (z : ℚ) = z := by
  rw [pyInt]
  by_cases h : (0 : ℚ) ≤ (z : ℚ)
  · rw [if_pos h, Int.floor_intCast]
  · rw [if_neg h, Int.ceil_intCast]

theorem fmt0_intCast (z : ℤ) : fmt0 (z : ℚ) = z := by
  have h0 : (z : ℚ) - (⌊(z : ℚ)⌋ : ℚ) = 0 := by
    rw [Int.floor_intCast, sub_self]
  simp only [fmt0, h0]
  rw [if_pos (by norm_num), Int.floor_intCast]

/-- C8 counterexample: for a pick with weight 1701.5 g and price 99.5 SGD,
the CSV data row does not hold the pick's `weight_g` value (the code writes
`int(weight_g)`, the truncation 1701) and does not equal the Markdown table
row (which shows the `{:.0f}`-rounded 1702 and 100). -/
theorem csvReport_raw_counterexample :
    ¬(csvReport oddPicks =
        [[Cell.s (strOf "category"), Cell.s (strOf "brand"), Cell.s (strOf "model"),
          Cell.s (strOf "variant"), Cell.s (strOf "weight_g"), Cell.s (strOf "price_sgd")],
         [Cell.s (strOf "Fork"), Cell.s oddPick.brand, Cell.s oddPick.model,
          Cell.s oddPick.variant, Cell.q oddPick.weight_g, Cell.q oddPick.price_sgd]]
      ∧ (csvReport oddPicks).tail = mdRows oddPicks) := by
  rintro ⟨h1, -⟩
  have hpy : pyInt oddPick.weight_g = 1701 := by
    rw [show oddPick.weight_g = 3403 / 2 from rfl, pyInt, if_pos (by norm_num)]
    norm_num
  rw [csvReport,
    show nonemptyPicks oddPicks = [(strOf "Fork", oddPick)] from rfl,
    List.map_cons, List.map_nil] at h1
  have hx := congrArg (fun r : List (List Cell) =>
    (r.drop 1).head?.bind fun row => (row.drop 4).head?) h1
  simp only [List.drop_succ_cons, List.drop_zero, List.head?_cons,
    Option.some_bind] at hx
  rw [hpy] at hx
  have hq : ((1701 : ℤ) : ℚ) = oddPick.weight_g := by
    injection hx with h2
    injection h2
  rw [show oddPick.weight_g = 3403 / 2 from rfl] at hq
  norm_num at hq

/-- C8 amended: the flat CSV report is the header row
`category,brand,model,variant,weight_g,price_sgd` followed by one row per
non-empty pick carrying the pick's category, brand, model and variant, the
weight truncated toward zero by `int(...)`, and the raw price; its rows agree
with the tabular (Markdown) document — whose numeric cells are instead
rounded to the nearest integer — whenever every pick's weight and price are
integers. -/
theorem csvReport_spec (picks : Picks) :
    csvReport picks =
      [Cell.s (strOf "category"), Cell.s (strOf "brand"), Cell.s (strOf "model"),
       Cell.s (strOf "variant"), Cell.s (strOf "weight_g"), Cell.s (strOf "price_sgd")]
      :: (nonemptyPicks picks).map (fun kv =>
          [Cell.s kv.1, Cell.s kv.2.brand, Cell.s kv.2.model, Cell.s kv.2.variant,
           Cell.q (pyInt kv.2.weight_g : ℚ), Cell.q kv.2.price_sgd])
  ∧ ((∀ kv ∈ nonemptyPicks picks,
        (∃ z : ℤ, kv.2.weight_g = (z : ℚ)) ∧ ∃ z : ℤ, kv.2.price_sgd = (z : ℚ)) →
      (csvReport picks).tail = mdRows picks) := by
  refine ⟨rfl, fun hint => ?_⟩
  rw [csvReport, mdRows]
  rw [List.tail_cons]
  refine List.map_congr_left fun kv hkv => ?_
  obtain ⟨⟨zw, hzw⟩, ⟨zp, hzp⟩⟩ := hint kv hkv
  rw [hzw, hzp, pyInt_intCast, fmt0_intCast, fmt0_intCast]

/-- Witness for C8 amended: on a pick with integral weight and price the CSV
data rows equal the Markdown table rows. -/
theorem csvReport_spec_w :
    (csvReport [(strOf "Fork", some fork1)]).tail = mdRows [(strOf "Fork", some fork1)] :=
  (csvReport_spec [(strOf "Fork", some fork1)]).2 (by
    intro kv hkv
    rw [show nonemptyPicks [(strOf "Fork", some fork1)] = [(strOf "Fork", fork1)] from rfl] at hkv
    obtain rfl := List.mem_singleton.mp hkv
    exact ⟨⟨1700, by norm_num [fork1]⟩, ⟨900, by norm_num [fork1]⟩⟩)

end BikeScenarios
